import Mathlib

/-!
Shallow embedding of the rename-refactoring engine in
`gopls/internal/lsp/source/rename.go`, together with proofs about the
claims of its specification.

External collaborators (snapshot, type checker, reference collector,
conflict checker) are modelled as parameters; the control flow and edit
synthesis are translated from the source.  All byte offsets are modelled
as character offsets (the inputs we reason about are ASCII, where the two
coincide).
-/

set_option autoImplicit false

namespace RenameCore

/-- A text edit, modelling `diff.Edit` from the source: replace the half-open
offset interval `[start, stop)` with `new`. -/
structure TextEdit where
  start : Nat
  stop : Nat
  new : String
  deriving DecidableEq, Repr

/-- Edits grouped with the URI of the file they apply to.  The Go code keeps a
`map[span.URI][]TextEdit`; we keep a flat association list in append order,
which preserves the per-file edit sequences. -/
abbrev EditsList := List (String × TextEdit)

/-- A source span, modelling `span.Span`: a file URI plus start/end offsets. -/
structure Span where
  uri : String
  start : Nat
  stop : Nat
  deriving DecidableEq, Repr

/-- Key of the `seenPackageRename` set: a (file URI, import path) pair. -/
structure SeenKey where
  uri : String
  importPath : String
  deriving DecidableEq, Repr

/-- The `seenPackageRename` set, modelling `map[seenPackageKey]bool` (a key is
present in the list iff it is mapped to `true` in the Go map). -/
abbrev SeenSet := List SeenKey

/-- `seenPackageRename.add` from the source: reports whether `uri` and
`importPath` have been seen, and records them as seen if not. -/
def seenAdd (s : SeenSet) (k : SeenKey) : Bool × SeenSet :=
  if k ∈ s then (true, s) else (false, k :: s)

/-! ### String helpers

Models of the Go string operations the source uses, defined on the underlying
character lists so that the proofs can use list lemmas directly. -/

/-- Model of Go `strings.HasPrefix`. -/
def strHasPre (s pre : String) : Bool :=
  pre.data.isPrefixOf s.data

/-- Model of Go `strings.HasSuffix`. -/
def strHasSuf (s suf : String) : Bool :=
  suf.data.isSuffixOf s.data

/-- Drop the first `n` characters of a string. -/
def strDrop (s : String) (n : Nat) : String :=
  ⟨s.data.drop n⟩

/-- Model of Go `strings.TrimPrefix`. -/
def strTrimPre (s pre : String) : String :=
  if strHasPre s pre then strDrop s pre.data.length else s

/-- Model of Go `strconv.Quote` restricted to strings without escapes, which
is the case for import paths. -/
def quoteStr (s : String) : String :=
  "\"" ++ s ++ "\""

/-- Model of Go `path.Dir` for already-clean slash-separated relative paths:
everything before the last slash, or "." when there is no slash. -/
def pathDir (p : String) : String :=
  match p.data.reverse.dropWhile (fun c => c ≠ '/') with
  | [] => "."
  | _ :: rest => ⟨rest.reverse⟩

/-- Model of Go `path.Join` on two components, for already-clean relative
paths. -/
def pathJoin (a b : String) : String :=
  if a = "" then b else if a = "." then b else a ++ "/" ++ b

/-! ### Word-boundary scanning

Models the `regexp.FindAllIndex` calls on the pattern `\b<old>\b`.  For a
pattern made of word characters (which a Go identifier is), the regexp finds
exactly the occurrences of the pattern delimited by non-word characters, and
no two such occurrences overlap, so a position filter is an exact model. -/

/-- An ASCII word character, as in the regexp character class `\w`. -/
def isWordChar (c : Char) : Bool :=
  c.isAlphanum || c = '_'

/-- Whether position `i` in `line` has a word boundary on its left. -/
def boundaryBefore (line : List Char) (i : Nat) : Bool :=
  match i with
  | 0 => true
  | j + 1 =>
    match line.get? j with
    | some c => !(isWordChar c)
    | none => true

/-- Whether position `j` in `line` has a word boundary on its right. -/
def boundaryAfter (line : List Char) (j : Nat) : Bool :=
  match line.get? j with
  | some c => !(isWordChar c)
  | none => true

/-- Whether `pat` occurs at position `i` of `line` as a whole word. -/
def matchesAt (pat line : List Char) (i : Nat) : Bool :=
  ((line.drop i).take pat.length == pat) && boundaryBefore line i
    && boundaryAfter line (i + pat.length)

/-- All whole-word match positions of `pat` in `line`; models
`regexp.FindAllIndex` for the pattern `\b pat \b`. -/
def wordMatches (pat line : List Char) : List Nat :=
  (List.range (line.length + 1)).filter (matchesAt pat line)

/-- Model of Go `strings.Split(s, "\n")` on character lists. -/
def splitLinesData : List Char → List (List Char)
  | [] => [[]]
  | c :: rest =>
    let r := splitLinesData rest
    if c = '\n' then [] :: r
    else
      match r with
      | [] => [[c]]
      | l :: ls => (c :: l) :: ls

/-- Modelled from the spec: identifier-syntax validation (`isValidIdentifier`
is repository code outside the core under verification; the spec treats
"low-level identifier-validity lexing rules" as external).  A valid identifier
is nonempty, starts with a letter or underscore, and continues with letters,
digits or underscores. -/
def isValidIdentifier (name : String) : Bool :=
  match name.data with
  | [] => false
  | c :: rest => (c.isAlpha || c = '_') && rest.all (fun d => d.isAlphanum || d = '_')

/-- Modelled from the spec: the recognizer for "lines recognized as tool
directives" (`isDirective` is repository code outside the core under
verification).  A directive is a line comment of the form `//go:...`,
`//line ...` and similar; the theorems using it quantify over an arbitrary
recognizer, this model only feeds concrete examples. -/
def isDirectiveM (s : String) : Bool :=
  strHasPre s "//go:" || strHasPre s "//line "

/-! ### Symbol and reference model

Translated from the data the single-symbol path of `rename.go` reads off the
type checker; the resolution from cursor positions to objects and references
is the external Reference Collector. -/

/-- A resolved object (`types.Object`): its declared name plus the flags
`checkRenamable` inspects (`*types.Var` with `Embedded()`, blank name). -/
structure ObjM where
  name : String
  isEmbeddedVar : Bool
  deriving DecidableEq, Repr

/-- The data `updatePkgName` reads about a `*types.PkgName` reference: its
local name, the declared name of the imported package
(`pkgName.Imported().Name()`), and the resolved positions of the enclosing
`ast.ImportSpec` (start of the spec, start of the quoted path literal). -/
structure PkgNameM where
  name : String
  importedName : String
  specStart : Nat
  pathStart : Nat
  deriving DecidableEq, Repr

/-- One `*ast.Comment` of a doc-comment group, with the file it lives in and
the absolute offset of each of its physical lines (line `i` of the split text
starts at `lineStarts[i]`; the source computes these from the token file,
which is how it stays correct in the presence of stripped `\r`). -/
structure CommentM where
  uri : String
  text : String
  lineStarts : List Nat
  deriving DecidableEq, Repr

/-- A reference (`ReferenceInfo`) to the renamed symbol: its span, whether it
is the declaring occurrence, the object it resolves to, the import-spec data
when that object is a `*types.PkgName`, whether `ref.ident` is present, and
the doc-comment group the (external) `docComment` lookup finds for it. -/
structure RefM where
  uri : String
  start : Nat
  stop : Nat
  isDeclaration : Bool
  obj : ObjM
  pkgNameInfo : Option PkgNameM
  identPresent : Bool
  doc : Option (List CommentM)

/-- The span of a reference, as used for the `seen` dedup map in `update`. -/
def spanOf (r : RefM) : Span :=
  ⟨r.uri, r.start, r.stop⟩

/-- `(*renamer).updatePkgName` from the source: one edit replacing the
portion of the import spec before the quoted path; the text is empty when the
imported package's declared name equals the new name, else the new name
followed by a space. -/
def updatePkgName (toN : String) (p : PkgNameM) : TextEdit :=
  { start := p.specStart
    stop := p.pathStart
    new := if p.importedName = toN then "" else toN ++ " " }

/-- The doc-comment rewriting loop of `(*renamer).update` for one comment:
skip tool directives, then scan line by line for whole-word matches of the
old name and emit one edit per match at the absolute offset of its line. -/
def commentEdits (dir : String → Bool) (frm toN : String) (c : CommentM) : EditsList :=
  if dir c.text then []
  else
    (splitLinesData c.text.data).enum.flatMap fun p =>
      (wordMatches frm.data p.2).map fun idx =>
        (c.uri, ⟨c.lineStarts.getD p.1 0 + idx, c.lineStarts.getD p.1 0 + idx + frm.data.length, toN⟩)

/-- The edits `(*renamer).update` produces for a single (not-yet-seen)
reference: the `PkgName` declaration case goes through `updatePkgName`;
otherwise the identifier span is replaced with the new name, and for a
declaring occurrence with an identifier the doc comment is rewritten. -/
def processRef (dir : String → Bool) (frm toN : String) (r : RefM) : EditsList :=
  match r.pkgNameInfo, r.isDeclaration with
  | some p, true => [(r.uri, updatePkgName toN p)]
  | _, _ =>
    (r.uri, ⟨r.start, r.stop, toN⟩) ::
      (if r.isDeclaration && r.identPresent then
        (match r.doc with
         | some cs => cs.flatMap (commentEdits dir frm toN)
         | none => [])
      else [])

/-- The reference loop of `(*renamer).update`, with the `seen` span set made
explicit. -/
def updateAux (dir : String → Bool) (frm toN : String) (seen : List Span) :
    List RefM → EditsList
  | [] => []
  | r :: rest =>
    if spanOf r ∈ seen then updateAux dir frm toN seen rest
    else processRef dir frm toN r ++ updateAux dir frm toN (spanOf r :: seen) rest

/-- `(*renamer).update` from the source. -/
def update (dir : String → Bool) (frm toN : String) (refs : List RefM) : EditsList :=
  updateAux dir frm toN [] refs

/-- Span-deduplication of a reference list, keeping the first occurrence of
each (file, span) pair; this is the `seen` semantics of `update` distilled
into a list operation, used to state the dedup invariant. -/
def dedupAux (seen : List Span) : List RefM → List RefM
  | [] => []
  | r :: rest =>
    if spanOf r ∈ seen then dedupAux seen rest
    else r :: dedupAux (spanOf r :: seen) rest

/-- Deduplicate references by (file, span). -/
def dedupBySpan (refs : List RefM) : List RefM :=
  dedupAux [] refs

/-- The conflict-checking loop of `renameObj`: calls the (external) Conflict
Checker on each reference's object and stops at the first conflict.  Returns
the objects that were actually checked and the first conflict message, if
any. -/
def checkRefs (check : ObjM → Option String) : List RefM → List ObjM × Option String
  | [] => ([], none)
  | r :: rest =>
    match check r.obj with
    | some msg => ([r.obj], some msg)
    | none =>
      let p := checkRefs check rest
      (r.obj :: p.1, p.2)

/-- The distinguishable error values returned by the rename engine. -/
inductive RenameErr where
  | notValidIdent (name : String)
  | noPackages
  | missingModule (pkgPath : String)
  | toTestPkg
  | samePath (modulePath : String)
  | embeddedField
  | blankIdent
  | sameName (name : String)
  | conflict (msg : String)
  | collaborator (msg : String)
  | unsupportedFileRename
  | mainPkg
  | testVariantPkg
  deriving DecidableEq, Repr

/-- `checkRenamable` from the source: an embedded field or the blank
identifier may not be renamed. -/
def checkRenamable (o : ObjM) : Option RenameErr :=
  if o.isEmbeddedVar then some .embeddedField
  else if o.name = "_" then some .blankIdent
  else none

/-- `renameObj` from the source, with the Reference Collector's output
(`refs`) and the Conflict Checker (`check`) as parameters: validation, the
fail-fast conflict loop, then `update`.  An error carries no edits. -/
def renameObj (dir : String → Bool) (check : ObjM → Option String) (obj : ObjM)
    (refs : List RefM) (newName : String) : Except RenameErr EditsList :=
  match checkRenamable obj with
  | some e => .error e
  | none =>
    if obj.name = newName then .error (.sameName newName)
    else if isValidIdentifier newName = false then .error (.notValidIdent newName)
    else
      match (checkRefs check refs).2 with
      | some msg => .error (.conflict msg)
      | none => .ok (update dir obj.name newName refs)

/-! ### Package and metadata model -/

/-- `Metadata` as read by the package-rename path: package ID, package name,
package path, and the enclosing module path when module information is
present. -/
structure MetadataM where
  packageId : String
  packageName : String
  packagePath : String
  moduleInfo : Option String
  deriving DecidableEq, Repr

/-- An `ast.ImportSpec` of a compiled Go file: optional explicit local alias,
the unquoted import path, and the offsets of the quoted path literal. -/
structure ImportSpecM where
  name : Option String
  path : String
  pathStart : Nat
  pathStop : Nat
  deriving DecidableEq, Repr

/-- A compiled Go file: its URI, the span of the package-clause identifier
(`f.File.Name`, absent when the file has no package name), and its import
declarations. -/
structure GoFileM where
  uri : String
  pkgIdent : Option (Nat × Nat)
  imports : List ImportSpecM
  deriving DecidableEq, Repr

/-- A built package: its files, whether it was parsed in full mode, and the
name sets of its package scope and of each file scope (used by the alias
probing loop). -/
structure PackageM where
  files : List GoFileM
  parseModeFull : Bool
  pkgScope : List String
  fileScopes : List (String × List String)
  deriving DecidableEq, Repr

/-- The external snapshot collaborators the package-rename path calls:
`WorkspacePackageByID`, `GetReverseDependencies`, and the recursive
single-symbol rename of a local package alias (`renameObj` applied to the
implicit `types.PkgName` of an import, keyed here by file URI, import path
and chosen local name; it returns per-file edit lists like the Go
`map[span.URI][]protocol.TextEdit`). -/
structure SnapshotM where
  pkgOfId : String → Option PackageM
  reverseDeps : String → Except RenameErr (List PackageM)
  renameLocalAlias : String → String → String → Except RenameErr (List (String × List TextEdit))

/-- Lookup in an association list keyed by strings. -/
def assocGet {α : Type} (l : List (String × α)) (k : String) : Option α :=
  match l with
  | [] => none
  | (k2, v) :: rest => if k2 = k then some v else assocGet rest k

/-- Apply `f` to the entry of `changes` keyed by `k` (the Go code reassigns
`changes[f.URI]`; when the key is absent Go would panic on `v[1:]`, the model
is total and leaves the list unchanged — the key is always present in
practice, because the recursive rename always edits the import's own file). -/
def assocUpdate (changes : List (String × List TextEdit)) (k : String)
    (f : List TextEdit → List TextEdit) : List (String × List TextEdit) :=
  changes.map fun p => if p.1 = k then (p.1, f p.2) else p

/-- Flatten a per-file edit map into the flat edit list. -/
def assocFlatten (changes : List (String × List TextEdit)) : EditsList :=
  changes.flatMap fun p => p.2.map fun e => (p.1, e)

/-- The file scope of `f.File` inside a dependency package. -/
def fileScopeOf (dep : PackageM) (uri : String) : List String :=
  (assocGet dep.fileScopes uri).getD []

/-- The numeric-suffix probing loop of `renameImports`: starting from
`newName`, append `1`, `2`, ... until the candidate is bound in neither the
file scope nor the package scope (`bound` is the union of the two); the loop
terminates because the candidates are pairwise distinct and the scopes are
finite, which the model realizes by trying one more candidate than `bound`
has entries. -/
def candName (newName : String) (t : Nat) : String :=
  if t = 0 then newName else newName ++ toString t

/-- The probing loop itself: the first candidate (see `candName`) bound in
neither scope. -/
def firstFree (bound : List String) (newName : String) : String :=
  match (List.range (bound.length + 1)).find? (fun t => !(bound.contains (candName newName t))) with
  | some t => candName newName t
  | none => newName

/-- The comparison `protocol.CompareRange` induces on offset edits: by start,
then by end. -/
def editLe (a b : TextEdit) : Bool :=
  Nat.blt a.start b.start || (a.start == b.start && Nat.ble a.stop b.stop)

/-- Insert into a sorted edit list. -/
def insertEdit (e : TextEdit) : List TextEdit → List TextEdit
  | [] => [e]
  | x :: xs => if editLe e x then e :: x :: xs else x :: insertEdit e xs

/-- The `sort.Slice(v, CompareRange < 0)` call of `renameImports`, as an
insertion sort. -/
def sortEdits : List TextEdit → List TextEdit
  | [] => []
  | x :: xs => insertEdit x (sortEdits xs)

/-- The body of the import loop of `renameImports` for one `ast.ImportSpec`:
skip imports of other paths; rewrite the quoted path literal; when the
package name is unchanged or an explicit alias exists, stop there; otherwise
probe for a conflict-free local alias, recursively rename the implicit
`types.PkgName` to it, and if the chosen alias equals the new package name
drop the lexically-first edit produced for this file. -/
def processImport (s : SnapshotM) (m : MetadataM) (newPath newName : String)
    (dep : PackageM) (f : GoFileM) (imp : ImportSpecM) (eds : EditsList) :
    Except RenameErr EditsList :=
  if imp.path ≠ m.packagePath then .ok eds
  else
    let eds := eds ++ [(f.uri, ⟨imp.pathStart, imp.pathStop, quoteStr newPath⟩)]
    if newName = m.packageName ∨ imp.name.isSome then .ok eds
    else
      let localName := firstFree (fileScopeOf dep f.uri ++ dep.pkgScope) newName
      match s.renameLocalAlias f.uri m.packagePath localName with
      | .error e => .error e
      | .ok changes =>
        let changes :=
          if localName = newName then
            assocUpdate changes f.uri (fun v => (sortEdits v).drop 1)
          else changes
        .ok (eds ++ assocFlatten changes)

/-- Fold of `processImport` over the imports of one file. -/
def processImports (s : SnapshotM) (m : MetadataM) (newPath newName : String)
    (dep : PackageM) (f : GoFileM) :
    List ImportSpecM → EditsList → Except RenameErr EditsList
  | [], eds => .ok eds
  | imp :: rest, eds =>
    match processImport s m newPath newName dep f imp eds with
    | .error e => .error e
    | .ok eds2 => processImports s m newPath newName dep f rest eds2

/-- The body of the file loop of `renameImports`: mark the (file, import
path) pair as seen, skipping the file if it already was. -/
def processDepFile (s : SnapshotM) (m : MetadataM) (newPath newName : String)
    (dep : PackageM) (f : GoFileM) (st : SeenSet × EditsList) :
    Except RenameErr (SeenSet × EditsList) :=
  let p := seenAdd st.1 ⟨f.uri, m.packagePath⟩
  if p.1 then .ok (p.2, st.2)
  else
    match processImports s m newPath newName dep f f.imports st.2 with
    | .error e => .error e
    | .ok eds2 => .ok (p.2, eds2)

/-- Fold of `processDepFile` over the files of one reverse dependency. -/
def processFiles (s : SnapshotM) (m : MetadataM) (newPath newName : String)
    (dep : PackageM) :
    List GoFileM → SeenSet × EditsList → Except RenameErr (SeenSet × EditsList)
  | [], st => .ok st
  | f :: rest, st =>
    match processDepFile s m newPath newName dep f st with
    | .error e => .error e
    | .ok st2 => processFiles s m newPath newName dep rest st2

/-- The body of the reverse-dependency loop of `renameImports`: packages not
parsed in full mode (intermediate test variants) are skipped. -/
def processDep (s : SnapshotM) (m : MetadataM) (newPath newName : String)
    (dep : PackageM) (st : SeenSet × EditsList) :
    Except RenameErr (SeenSet × EditsList) :=
  if dep.parseModeFull then processFiles s m newPath newName dep dep.files st
  else .ok st

/-- Fold of `processDep` over all reverse dependencies. -/
def processDeps (s : SnapshotM) (m : MetadataM) (newPath newName : String) :
    List PackageM → SeenSet × EditsList → Except RenameErr (SeenSet × EditsList)
  | [], st => .ok st
  | dep :: rest, st =>
    match processDep s m newPath newName dep st with
    | .error e => .error e
    | .ok st2 => processDeps s m newPath newName rest st2

/-- `renameImports` from the source: fetch the reverse dependencies of the
renamed package and process each of them. -/
def renameImports (s : SnapshotM) (m : MetadataM) (newPath newName : String)
    (st : SeenSet × EditsList) : Except RenameErr (SeenSet × EditsList) :=
  match s.reverseDeps m.packageId with
  | .error e => .error e
  | .ok rdeps => processDeps s m newPath newName rdeps st

/-- The file loop of `renamePackageClause`: rename the package-clause
identifier of every not-yet-seen file that has one. -/
def clauseFiles (m : MetadataM) (newName : String) :
    List GoFileM → SeenSet × EditsList → SeenSet × EditsList
  | [], st => st
  | f :: rest, st =>
    let p := seenAdd st.1 ⟨f.uri, m.packagePath⟩
    if p.1 then clauseFiles m newName rest (p.2, st.2)
    else
      match f.pkgIdent with
      | none => clauseFiles m newName rest (p.2, st.2)
      | some sp => clauseFiles m newName rest (p.2, st.2 ++ [(f.uri, ⟨sp.1, sp.2, newName⟩)])

/-- `renamePackageClause` from the source: build the package and rewrite the
package clause of each of its compiled files. -/
def renamePackageClause (s : SnapshotM) (m : MetadataM) (newName : String)
    (st : SeenSet × EditsList) : Except RenameErr (SeenSet × EditsList) :=
  match s.pkgOfId m.packageId with
  | none => .error (.collaborator "package not found")
  | some pkg => .ok (clauseFiles m newName pkg.files st)

/-- The body of the metadata loop of `renamePackage` for one package `m`:
the `x_test` special case, the scope filter (checked before module info so
unrelated packages without module info do not fail the operation), the
module-membership filter, then clause renaming for the target itself and
the rewriting of imports to `newPathPre ++ suffix`. -/
def processMeta (s : SnapshotM) (modulePath oldPath newName newPathPre : String)
    (m : MetadataM) (st : SeenSet × EditsList) :
    Except RenameErr (SeenSet × EditsList) :=
  if m.packagePath = oldPath ++ "_test" then
    renamePackageClause s m (newName ++ "_test") st
  else if strHasPre (m.packagePath ++ "/") (oldPath ++ "/") = false then .ok st
  else
    match m.moduleInfo with
    | none => .error (.missingModule m.packagePath)
    | some mpath =>
      if modulePath ≠ mpath then .ok st
      else
        let suffix := strTrimPre m.packagePath oldPath
        let newPath := newPathPre ++ suffix
        let pkgName := if m.packagePath = oldPath then newName else m.packageName
        let st1 :=
          if m.packagePath = oldPath then renamePackageClause s m newName st
          else .ok st
        match st1 with
        | .error e => .error e
        | .ok st2 => renameImports s m newPath pkgName st2

/-- Fold of `processMeta` over all workspace metadata. -/
def renamePackageLoop (s : SnapshotM) (modulePath oldPath newName newPathPre : String) :
    List MetadataM → SeenSet × EditsList → Except RenameErr (SeenSet × EditsList)
  | [], st => .ok st
  | m :: rest, st =>
    match processMeta s modulePath oldPath newName newPathPre m st with
    | .error e => .error e
    | .ok st2 => renamePackageLoop s modulePath oldPath newName newPathPre rest st2

/-- `renamePackage` from the source: reject a rename when the module path
equals the package path, compute `newPathPrefix = path.Join(path.Dir(oldPath),
newName)`, then process every package of the workspace metadata. -/
def renamePackage (s : SnapshotM) (modulePath oldPath newName : String)
    (allMetadata : List MetadataM) : Except RenameErr EditsList :=
  if modulePath = oldPath then .error (.samePath modulePath)
  else
    match renamePackageLoop s modulePath oldPath newName
        (pathJoin (pathDir oldPath) newName) allMetadata ([], []) with
    | .error e => .error e
    | .ok st => .ok st.2

/-! ### Top-level dispatch -/

/-- The single-symbol side of a rename request: the object resolved at the
cursor (`qos[0].obj`), the references the Reference Collector returns for it,
the Conflict Checker, and the directive recognizer used for doc comments. -/
structure SymbolReq where
  obj : ObjM
  refs : List RefM
  check : ObjM → Option String
  dir : String → Bool

/-- A rename request after the external parsing steps: whether the cursor
lies in the package-clause identifier (`isInPackageName`), the metadata for
the file (`MetadataForFile`), the whole workspace metadata
(`AllValidMetadata`), the snapshot, and the resolved symbol data for the
non-package branch. -/
structure RenameReq where
  inPackageName : Bool
  fileMeta : List MetadataM
  allMetadata : List MetadataM
  snap : SnapshotM
  sym : SymbolReq

/-- `Rename` from the source (the interface-implementation fan-out, which
only adds a separate optional bundle, is outside the claims and omitted):
returns the edits or an error, plus the `isPackageRename` boolean.  Every
return of the package branch pairs with `true`, every return of the symbol
branch with `false`; errors carry no edits. -/
def RenameModel (req : RenameReq) (newName : String) :
    Except RenameErr EditsList × Bool :=
  if req.inPackageName then
    if isValidIdentifier newName = false then (.error (.notValidIdent newName), true)
    else
      match req.fileMeta with
      | [] => (.error .noPackages, true)
      | meta :: _ =>
        let oldPath := meta.packagePath
        match meta.moduleInfo with
        | none => (.error (.missingModule meta.packagePath), true)
        | some modulePath =>
          if strHasSuf newName "_test" then (.error .toTestPkg, true)
          else
            match renamePackage req.snap modulePath oldPath newName req.allMetadata with
            | .error e => (.error e, true)
            | .ok eds => (.ok eds, true)
  else
    match renameObj req.sym.dir req.sym.check req.sym.obj req.sym.refs newName with
    | .error e => (.error e, false)
    | .ok eds => (.ok eds, false)

/-- The result of a successful prepare query: the span and current text of
the renamable token. -/
structure PrepareItemM where
  start : Nat
  stop : Nat
  text : String
  deriving DecidableEq, Repr

/-- A prepare request after the external parsing steps: classification of
the position, the client's file-rename capability, the metadata for the
file, whether `WorkspacePackageByID` succeeds, the package name and the
package-clause span for the package branch, and the resolved object with its
span for the symbol branch. -/
structure PrepareReq where
  inPackageName : Bool
  fileRenameSupported : Bool
  fileMeta : List MetadataM
  pkgLookupOk : Bool
  pkgName : String
  pkgClauseSpan : Nat × Nat
  symObj : ObjM
  symSpan : Nat × Nat

/-- `PrepareRename` from the source: the package branch requires client
support for file renames, metadata, a package that is neither `main` nor an
`x_test` variant, and module information whose path differs from the package
path; the symbol branch only checks `checkRenamable`.  A prepare query never
produces edits. -/
def PrepareRenameModel (req : PrepareReq) : Except RenameErr PrepareItemM :=
  if req.inPackageName then
    if req.fileRenameSupported = false then .error .unsupportedFileRename
    else
      match req.fileMeta with
      | [] => .error .noPackages
      | meta :: _ =>
        if meta.packageName = "main" then .error .mainPkg
        else if strHasSuf meta.packageName "_test" then .error .testVariantPkg
        else
          match meta.moduleInfo with
          | none => .error (.missingModule meta.packagePath)
          | some mpath =>
            if mpath = meta.packagePath then .error (.samePath mpath)
            else if req.pkgLookupOk = false then .error (.collaborator "error building package to rename")
            else .ok ⟨req.pkgClauseSpan.1, req.pkgClauseSpan.2, req.pkgName⟩
  else
    match checkRenamable req.symObj with
    | some e => .error e
    | none => .ok ⟨req.symSpan.1, req.symSpan.2, req.symObj.name⟩

/-- Whether an `Except` is a success. -/
def isOkE {ε α : Type} : Except ε α → Bool
  | .ok _ => true
  | .error _ => false

/-! ### Concrete instances used by the witnesses and counterexamples -/

/-- A snapshot with a single known package and no reverse dependencies. -/
def snapSimple (pid : String) (pkg : PackageM) : SnapshotM :=
  { pkgOfId := fun i => if i = pid then some pkg else none
    reverseDeps := fun _ => .ok []
    renameLocalAlias := fun _ _ _ => .ok [] }

/-- A symbol request that is never reached by the package-branch examples. -/
def symDummy : SymbolReq :=
  { obj := ⟨"x", false⟩, refs := [], check := fun _ => none, dir := fun _ => false }

/-- Metadata of a `main` (entry) package inside module `example.com`. -/
def mdMain : MetadataM :=
  ⟨"idMain", "main", "example.com/cmd/app", some "example.com"⟩

/-- The single file of the `main` package. -/
def pkgOne : PackageM :=
  ⟨[⟨"app.go", some (8, 12), []⟩], true, [], []⟩

/-- A rename request whose cursor sits in the package clause of the `main`
package. -/
def reqMain : RenameReq :=
  ⟨true, [mdMain], [mdMain], snapSimple "idMain" pkgOne, symDummy⟩

/-- Metadata of an ordinary package `foo` inside module `example.com`. -/
def mdFoo : MetadataM :=
  ⟨"idFoo", "foo", "example.com/foo", some "example.com"⟩

/-- The single file of package `foo`. -/
def pkgFoo : PackageM :=
  ⟨[⟨"foo.go", some (8, 11), []⟩], true, [], []⟩

/-- A rename request whose cursor sits in the package clause of `foo`. -/
def reqFoo : RenameReq :=
  ⟨true, [mdFoo], [mdFoo], snapSimple "idFoo" pkgFoo, symDummy⟩

/-- A `PkgName` whose local alias (`foo`) differs from the declared name of
the imported package (`bar`): `import foo "a/bar"`. -/
def pkgNameEx : PkgNameM :=
  ⟨"foo", "bar", 10, 14⟩

/-- A dependency file importing the descendant `example.com/old/sub` under
an explicit alias. -/
def fC5 : GoFileM :=
  ⟨"client.go", none, [⟨some "alias", "example.com/old/sub", 30, 52⟩]⟩

/-- The fully-parsed reverse dependency holding `fC5`. -/
def depC5 : PackageM :=
  ⟨[fC5], true, [], []⟩

/-- The built descendant package itself (its clause is not renamed). -/
def pkgC5 : PackageM :=
  ⟨[], true, [], []⟩

/-- Metadata of the descendant package `example.com/old/sub`. -/
def mC5 : MetadataM :=
  ⟨"idSub", "sub", "example.com/old/sub", some "example.com"⟩

/-- Snapshot for the descendant scenario. -/
def snapC5 : SnapshotM :=
  ⟨fun _ => some pkgC5, fun _ => .ok [depC5], fun _ _ _ => .ok []⟩

/-! ### Helper lemmas -/

theorem strExt {s t : String} (h : s.data = t.data) : s = t := by
  cases s; cases t; exact congrArg String.mk h

theorem strAppend_empty (a : String) : a ++ "" = a := by
  apply strExt
  rw [String.data_append]
  exact List.append_nil a.data

theorem strAppend_assoc (a b c : String) : (a ++ b) ++ c = a ++ (b ++ c) := by
  apply strExt
  simp only [String.data_append]
  exact List.append_assoc a.data b.data c.data

theorem strHasPre_append (a b : String) : strHasPre (a ++ b) a = true := by
  unfold strHasPre
  rw [String.data_append, List.isPrefixOf_iff_prefix]
  exact List.prefix_append a.data b.data

theorem strHasPre_refl (a : String) : strHasPre a a = true := by
  unfold strHasPre
  rw [List.isPrefixOf_iff_prefix]

theorem strTrimPre_append (a b : String) : strTrimPre (a ++ b) a = b := by
  have h1 : (a ++ b).data.drop a.data.length = b.data := by
    rw [String.data_append]
    exact List.drop_left a.data b.data
  simp only [strTrimPre, strHasPre_append, if_true, strDrop, h1]

theorem strAppend_left_ne {a s t : String} (h : s ≠ t) : a ++ s ≠ a ++ t := by
  intro he
  apply h
  apply strExt
  have hd := congrArg String.data he
  rw [String.data_append, String.data_append] at hd
  exact List.append_cancel_left hd

/-! ### Claim C10 -/

/-- Claim C10: for every (file URI, import path) pair, the first call to
`seenPackageRename.add` with that pair returns `false` and records it, every
subsequent call with the same pair returns `true`, and the seen set only
grows — `add` is the only operation and it never removes a recorded pair. -/
theorem C10_seen_add (s : SeenSet) (k k2 : SeenKey) :
    (seenAdd s k).1 = decide (k ∈ s)
    ∧ k ∈ (seenAdd s k).2
    ∧ s.Sublist (seenAdd s k2).2
    ∧ (seenAdd (seenAdd s k).2 k).1 = true := by
  by_cases h : k ∈ s
  · by_cases h2 : k2 ∈ s <;> simp [seenAdd, h, h2, List.sublist_cons_self]
  · by_cases h2 : k2 ∈ s <;> simp [seenAdd, h, h2, List.sublist_cons_self]

/-! ### Claim C3 -/

/-- Claim C3, counterexample to the claim as stated: a package rename
initiated at the package clause whose new name equals the current package
name (`foo` to `foo`) does not fail — it succeeds and returns the (no-op)
package-clause edit, because the `Rename` package branch never compares the
new name with the current package name. -/
theorem C3_counterexample :
    mdFoo.packageName = "foo"
    ∧ (RenameModel reqFoo "foo").2 = true
    ∧ (RenameModel reqFoo "foo").1 = .ok [("foo.go", ⟨8, 11, "foo"⟩)] := by
  refine ⟨rfl, rfl, ?_⟩
  rfl

/-- Claim C3 as amended: on the single-symbol path (`renameObj`), renaming
any renamable symbol to its own current name fails with the
same-name (`InvalidName`) error and produces no edits; the package-clause
path does not perform this check (see the counterexample). -/
theorem C3_same_name_rejected (dir : String → Bool) (check : ObjM → Option String)
    (obj : ObjM) (refs : List RefM) (newName : String)
    (h1 : obj.isEmbeddedVar = false) (h2 : obj.name ≠ "_")
    (h3 : obj.name = newName) :
    renameObj dir check obj refs newName = .error (.sameName newName) := by
  have h2b : newName ≠ "_" := h3 ▸ h2
  simp [renameObj, checkRenamable, h1, h2b, h3]

/-- Witness for C3: the amended theorem applied at a concrete input. -/
theorem C3_same_name_rejected_witness :
    renameObj (fun _ => false) (fun _ => none) ⟨"x", false⟩ [] "x"
      = .error (.sameName "x") :=
  C3_same_name_rejected (fun _ => false) (fun _ => none) ⟨"x", false⟩ [] "x"
    rfl (by decide) rfl

/-! ### Claim C6 -/

/-- Claim C6, counterexample to the claim as stated: for the declaring
occurrence of alias `foo` in `import foo "a/bar"`, renaming it to `bar`
(which differs from the current name `foo`) produces the empty replacement
text, not `"bar "`: the source compares the new name with the imported
package's declared name, not with the target's current name. -/
theorem C6_counterexample :
    pkgNameEx.name ≠ "bar"
    ∧ (updatePkgName "bar" pkgNameEx).new
        ≠ (if pkgNameEx.name = "bar" then "" else "bar" ++ " ") := by
  decide

/-- Claim C6 as amended: for the declaring occurrence of a package-import
alias, `update` emits exactly one edit replacing the span from the import
spec's start to the quoted path literal's start; the replacement text is
empty when the new name equals the **imported package's declared name**
(alias removed entirely), and otherwise is the new name followed by a single
space — both inserting a new explicit alias and renaming an existing one are
a single substitution of the pre-path span. -/
theorem C6_pkgname_edit (dir : String → Bool) (frm toN : String) (r : RefM)
    (p : PkgNameM) (hp : r.pkgNameInfo = some p) (hd : r.isDeclaration = true) :
    update dir frm toN [r]
      = [(r.uri, ⟨p.specStart, p.pathStart,
          if p.importedName = toN then "" else toN ++ " "⟩)] := by
  simp [update, updateAux, processRef, updatePkgName, hp, hd]

/-- Witness for C6: the amended theorem applied at a concrete reference, in
both the removal case and the insertion case. -/
theorem C6_pkgname_edit_witness :
    update (fun _ => false) "foo" "bar"
        [⟨"a.go", 10, 13, true, ⟨"foo", false⟩, some pkgNameEx, true, none⟩]
      = [("a.go", ⟨10, 14, ""⟩)] := by
  have h := C6_pkgname_edit (fun _ => false) "foo" "bar"
    ⟨"a.go", 10, 13, true, ⟨"foo", false⟩, some pkgNameEx, true, none⟩
    pkgNameEx rfl rfl
  rw [h]
  rfl

/-! ### Claim C9 -/

/-- Claim C9: whenever the cursor position lies inside the package-clause
identifier, `Rename` reports `isPackageRename = true` on every return path,
successful or failing — the boolean reports the classification of the
request, not its success — and failures carry no edits (the error value
replaces the edit map). -/
theorem C9_is_package_rename (req : RenameReq) (newName : String)
    (hin : req.inPackageName = true) :
    (RenameModel req newName).2 = true := by
  unfold RenameModel
  rw [hin]
  simp only [if_true]
  split
  · rfl
  · split
    · rfl
    · split
      · rfl
      · split
        · rfl
        · split <;> rfl

/-- Witness for C9: a failing package rename (invalid new identifier) still
reports `isPackageRename = true`. -/
theorem C9_is_package_rename_witness :
    (RenameModel reqMain "123").2 = true
    ∧ isOkE (RenameModel reqMain "123").1 = false :=
  ⟨C9_is_package_rename reqMain "123" rfl, by decide⟩

/-! ### Claim C1 -/

/-- The checking loop on a reference list whose prefix is conflict-free and
whose next reference conflicts: the loop checks exactly the prefix plus the
conflicting reference, and surfaces that reference's message. -/
theorem checkRefs_clean_append (check : ObjM → Option String) (pre : List RefM)
    (r : RefM) (post : List RefM) (msg : String)
    (hclean : ∀ q ∈ pre, check q.obj = none) (hconf : check r.obj = some msg) :
    checkRefs check (pre ++ r :: post) = ((pre.map fun q => q.obj) ++ [r.obj], some msg) := by
  induction pre with
  | nil => simp [checkRefs, hconf]
  | cons q qs ih =>
    have hq : check q.obj = none := hclean q (by simp)
    have ihh := ih (fun x hx => hclean x (by simp [hx]))
    simp [checkRefs, hq, ihh]

/-- Claim C1: when the Conflict Checker reports a conflict for some
reference, `renameObj` returns an error and produces zero edits (the error
value replaces the edit map entirely — never a subset), and the checking
loop stops at the first conflicting reference: the checked objects are
exactly those of the conflict-free prefix plus the first conflicting
reference, so no reference after it is checked. -/
theorem C1_conflict_fail_fast (dir : String → Bool) (check : ObjM → Option String)
    (obj : ObjM) (pre post : List RefM) (r : RefM) (msg newName : String)
    (hclean : ∀ q ∈ pre, check q.obj = none)
    (hconf : check r.obj = some msg)
    (h1 : obj.isEmbeddedVar = false) (h2 : obj.name ≠ "_")
    (h3 : obj.name ≠ newName) (h4 : isValidIdentifier newName = true) :
    renameObj dir check obj (pre ++ r :: post) newName = .error (.conflict msg)
    ∧ (checkRefs check (pre ++ r :: post)).1 = (pre.map fun q => q.obj) ++ [r.obj] := by
  have hcr := checkRefs_clean_append check pre r post msg hclean hconf
  refine ⟨?_, by rw [hcr]⟩
  simp [renameObj, checkRenamable, h1, h2, h3, h4, hcr]

/-- Witness for C1: three references, the second conflicting; the result is
the conflict error and the third reference is never checked. -/
theorem C1_conflict_fail_fast_witness :
    renameObj (fun _ => false) (fun o => if o.name = "bad" then some "boom" else none)
        ⟨"f", false⟩
        [⟨"a.go", 1, 2, false, ⟨"x", false⟩, none, false, none⟩,
         ⟨"a.go", 5, 6, false, ⟨"bad", false⟩, none, false, none⟩,
         ⟨"a.go", 9, 10, false, ⟨"y", false⟩, none, false, none⟩] "g"
      = .error (.conflict "boom")
    ∧ (checkRefs (fun o => if o.name = "bad" then some "boom" else none)
        [⟨"a.go", 1, 2, false, ⟨"x", false⟩, none, false, none⟩,
         ⟨"a.go", 5, 6, false, ⟨"bad", false⟩, none, false, none⟩,
         ⟨"a.go", 9, 10, false, ⟨"y", false⟩, none, false, none⟩]).1
      = [⟨"x", false⟩, ⟨"bad", false⟩] :=
  C1_conflict_fail_fast (fun _ => false)
    (fun o => if o.name = "bad" then some "boom" else none) ⟨"f", false⟩
    [⟨"a.go", 1, 2, false, ⟨"x", false⟩, none, false, none⟩]
    [⟨"a.go", 9, 10, false, ⟨"y", false⟩, none, false, none⟩]
    ⟨"a.go", 5, 6, false, ⟨"bad", false⟩, none, false, none⟩ "boom" "g"
    (by decide) rfl rfl (by decide) (by decide) rfl

/-! ### Claim C8 -/

/-- Claim C8: doc-comment rewriting is performed only for declaring
occurrences, skips comments recognized as tool directives, scans the comment
per physical line, and replaces exactly the whole-word occurrences of the
old name: renaming `Foo` leaves `FooBar` untouched but rewrites the `Foo`
token of `Foo.Method()`. -/
theorem C8_doc_whole_word :
    (∀ (dir : String → Bool) (frm toN : String) (c : CommentM),
        dir c.text = true → commentEdits dir frm toN c = [])
    ∧ (∀ (dir : String → Bool) (frm toN : String) (r : RefM),
        r.pkgNameInfo = none → r.isDeclaration = false →
        processRef dir frm toN r = [(r.uri, ⟨r.start, r.stop, toN⟩)])
    ∧ wordMatches "Foo".data "renaming FooBar is untouched".data = []
    ∧ wordMatches "Foo".data "calls Foo.Method() here".data = [6]
    ∧ commentEdits isDirectiveM "Foo" "Bar"
        ⟨"a.go", "// Foo frobs.\n// Not FooBar.", [100, 114]⟩
        = [("a.go", ⟨103, 106, "Bar"⟩)]
    ∧ commentEdits isDirectiveM "Foo" "Bar" ⟨"a.go", "//go:generate Foo", [100]⟩ = [] := by
  refine ⟨?_, ?_, by decide, by decide, by decide, by decide⟩
  · intro dir frm toN c h
    simp [commentEdits, h]
  · intro dir frm toN r hp hd
    simp [processRef, hp, hd]

/-- Witness for C8: the directive-skipping part of the theorem applied at a
concrete directive comment. -/
theorem C8_doc_whole_word_witness :
    commentEdits isDirectiveM "x" "y" ⟨"u", "//go:x", [0]⟩ = [] :=
  C8_doc_whole_word.1 isDirectiveM "x" "y" ⟨"u", "//go:x", [0]⟩ (by decide)

/-! ### Claim C4 -/

/-- The reference loop of `update` gives the same edits on a reference list
and on its span-deduplication: a reference whose (file, span) was already
seen contributes nothing. -/
theorem updateAux_dedup (dir : String → Bool) (frm toN : String) (refs : List RefM) :
    ∀ seen, updateAux dir frm toN seen refs = updateAux dir frm toN seen (dedupAux seen refs) := by
  induction refs with
  | nil => intro seen; rfl
  | cons r rest ih =>
    intro seen
    by_cases h : spanOf r ∈ seen
    · simp only [updateAux, dedupAux, if_pos h]
      exact ih seen
    · simp only [updateAux, dedupAux, if_neg h]
      rw [ih (spanOf r :: seen)]

/-- On a list of plain identifier references (no `PkgName`, no doc comment)
with pairwise distinct spans, none of which was seen yet, the loop emits
exactly one identifier edit per reference. -/
theorem updateAux_plain (dir : String → Bool) (frm toN : String) (refs : List RefM)
    (h : ∀ r ∈ refs, r.pkgNameInfo = none ∧ r.doc = none)
    (hnd : (refs.map spanOf).Nodup) :
    ∀ seen, (∀ r ∈ refs, spanOf r ∉ seen) →
    updateAux dir frm toN seen refs
      = refs.map fun r => (r.uri, ⟨r.start, r.stop, toN⟩) := by
  induction refs with
  | nil => intro seen _; rfl
  | cons r rest ih =>
    intro seen hs
    have hr := h r (by simp)
    have hns : spanOf r ∉ seen := hs r (by simp)
    have hhd : spanOf r ∉ rest.map spanOf := (List.nodup_cons.mp hnd).1
    have hrest : updateAux dir frm toN (spanOf r :: seen) rest
        = rest.map fun q => (q.uri, ⟨q.start, q.stop, toN⟩) := by
      apply ih (fun x hx => h x (by simp [hx])) (List.nodup_cons.mp hnd).2
      intro x hx
      simp only [List.mem_cons]
      rintro (heq | hmem)
      · exact hhd (heq ▸ List.mem_map_of_mem spanOf hx)
      · exact hs x (by simp [hx]) hmem
    simp only [updateAux, if_neg hns, hrest, List.map_cons]
    simp [processRef, hr.1, hr.2]

/-- Claim C4: the final edit set contains at most one identifier edit per
(file, span) reference pair.  First conjunct: the loop of `update` produces
the same edits on a reference list and on its span-deduplication, so two
references with equal (file, span) — e.g. the same reference reached through
two build variants — yield exactly one edit.  Second conjunct: on distinct
plain references, exactly one edit per reference is emitted.  Third
conjunct: the package-clause loop likewise skips a file whose
(file, import path) pair is already in the seen set. -/
theorem C4_dedup_invariant :
    (∀ (dir : String → Bool) (frm toN : String) (seen : List Span) (refs : List RefM),
        updateAux dir frm toN seen refs = updateAux dir frm toN seen (dedupAux seen refs))
    ∧ (∀ (dir : String → Bool) (frm toN : String) (refs : List RefM),
        (∀ r ∈ refs, r.pkgNameInfo = none ∧ r.doc = none) →
        (refs.map spanOf).Nodup →
        update dir frm toN refs = refs.map fun r => (r.uri, ⟨r.start, r.stop, toN⟩))
    ∧ (∀ (m : MetadataM) (newName : String) (st : SeenSet × EditsList) (f : GoFileM),
        (⟨f.uri, m.packagePath⟩ : SeenKey) ∈ st.1 →
        clauseFiles m newName [f] st = st) := by
  refine ⟨fun dir frm toN seen refs => updateAux_dedup dir frm toN refs seen,
    fun dir frm toN refs h hnd => updateAux_plain dir frm toN refs h hnd [] (by simp),
    fun m newName st f hf => ?_⟩
  simp [clauseFiles, seenAdd, hf]

/-- Witness for C4: two duplicate references give one edit (via the first
conjunct) and two distinct references give one edit each (via the second). -/
theorem C4_dedup_invariant_witness :
    updateAux (fun _ => false) "a" "b" []
        [⟨"f.go", 3, 4, false, ⟨"a", false⟩, none, false, none⟩,
         ⟨"f.go", 3, 4, false, ⟨"a", false⟩, none, false, none⟩]
      = updateAux (fun _ => false) "a" "b" []
          (dedupAux []
            [⟨"f.go", 3, 4, false, ⟨"a", false⟩, none, false, none⟩,
             ⟨"f.go", 3, 4, false, ⟨"a", false⟩, none, false, none⟩])
    ∧ update (fun _ => false) "a" "b"
        [⟨"f.go", 3, 4, false, ⟨"a", false⟩, none, false, none⟩,
         ⟨"f.go", 8, 9, false, ⟨"a", false⟩, none, false, none⟩]
      = [("f.go", ⟨3, 4, "b"⟩), ("f.go", ⟨8, 9, "b"⟩)] :=
  ⟨C4_dedup_invariant.1 (fun _ => false) "a" "b" []
      [⟨"f.go", 3, 4, false, ⟨"a", false⟩, none, false, none⟩,
       ⟨"f.go", 3, 4, false, ⟨"a", false⟩, none, false, none⟩],
   C4_dedup_invariant.2.1 (fun _ => false) "a" "b"
      [⟨"f.go", 3, 4, false, ⟨"a", false⟩, none, false, none⟩,
       ⟨"f.go", 8, 9, false, ⟨"a", false⟩, none, false, none⟩]
      (by decide) (by decide)⟩

/-! ### Claim C2 -/

/-- Claim C2, counterexample to the claim as stated: with the cursor in the
package clause of the entry package (`package main`), `Rename` does not fail
— it classifies the request as a package rename and succeeds — because only
`PrepareRename` checks for the `main` package (and for the `_test` suffix of
the current package name). -/
theorem C2_counterexample :
    mdMain.packageName = "main"
    ∧ (RenameModel reqMain "app2").2 = true
    ∧ isOkE (RenameModel reqMain "app2").1 = true := by
  refine ⟨rfl, rfl, ?_⟩
  rfl

/-- Claim C2 as amended: for a package-rename request, `PrepareRename` fails
with an error whenever the target package is the entry package (`main`), its
name ends with the reserved `_test` suffix, module metadata is absent, or
the module path equals the package path; `Rename` fails on the latter two
conditions (and additionally rejects invalid or `_test`-suffixed **new**
names), but does not itself enforce the `main` and current-name `_test`
preconditions.  Errors carry no edits. -/
theorem C2_package_preconditions (preq : PrepareReq) (req : RenameReq)
    (newName : String) (meta : MetadataM) (rest1 rest2 : List MetadataM)
    (hpin : preq.inPackageName = true)
    (hsup : preq.fileRenameSupported = true)
    (hpmeta : preq.fileMeta = meta :: rest1)
    (hin : req.inPackageName = true)
    (hmeta : req.fileMeta = meta :: rest2) :
    ((meta.packageName = "main" ∨ strHasSuf meta.packageName "_test" = true
        ∨ meta.moduleInfo = none ∨ meta.moduleInfo = some meta.packagePath) →
      isOkE (PrepareRenameModel preq) = false)
    ∧ ((meta.moduleInfo = none ∨ meta.moduleInfo = some meta.packagePath) →
      isOkE (RenameModel req newName).1 = false) := by
  constructor
  · intro hdisj
    unfold PrepareRenameModel
    simp only [hpin, hsup, hpmeta, if_true]
    by_cases h1 : meta.packageName = "main"
    · simp [h1, isOkE]
    · by_cases h2 : strHasSuf meta.packageName "_test" = true
      · simp [h1, h2, isOkE]
      · rcases hdisj with h | h | h | h
        · exact absurd h h1
        · exact absurd h h2
        · simp [h1, h2, h, isOkE]
        · simp [h1, h2, h, isOkE]
  · intro hdisj
    unfold RenameModel
    simp only [hin, hmeta, if_true]
    by_cases hv : isValidIdentifier newName = false
    · simp [hv, isOkE]
    · rcases hdisj with h | h
      · simp [hv, h, isOkE]
      · by_cases ht : strHasSuf newName "_test" = true
        · simp [hv, h, ht, isOkE]
        · simp [hv, h, ht, isOkE, renamePackage]

/-- Witness for C2: the amended theorem applied at a `main` package with
absent module metadata, violating the preconditions of both paths. -/
theorem C2_package_preconditions_witness :
    isOkE (PrepareRenameModel
        ⟨true, true, [⟨"id", "main", "m/x", none⟩], true, "main", (0, 4), ⟨"x", false⟩, (0, 1)⟩)
      = false
    ∧ isOkE (RenameModel
        ⟨true, [⟨"id", "main", "m/x", none⟩], [], snapSimple "q" pkgOne, symDummy⟩ "y").1
      = false := by
  have h := C2_package_preconditions
    ⟨true, true, [⟨"id", "main", "m/x", none⟩], true, "main", (0, 4), ⟨"x", false⟩, (0, 1)⟩
    ⟨true, [⟨"id", "main", "m/x", none⟩], [], snapSimple "q" pkgOne, symDummy⟩
    "y" ⟨"id", "main", "m/x", none⟩ [] [] rfl rfl rfl rfl rfl
  exact ⟨h.1 (Or.inl rfl), h.2 (Or.inl rfl)⟩

/-! ### Claim C7 -/

/-- When neither scope binds the new name itself, the probing loop stops at
try 0 and the chosen local alias is the new name. -/
theorem firstFree_eq_of_free (bound : List String) (newName : String)
    (h : bound.contains newName = false) : firstFree bound newName = newName := by
  unfold firstFree
  rw [List.range_succ_eq_map]
  rw [List.find?_cons_of_pos _ (by simp [candName]; simpa using h)]
  simp [candName]

/-- Claim C7: in the import loop of `renameImports`, when the import has no
explicit alias, the package name changed, and the conflict-free alias chosen
by numeric-suffix probing equals the new package name, the lexically-first
edit the recursive single-symbol rename produced for that file is dropped:
the file keeps the import-path literal edit and the remaining recursive
edits, and the dropped alias-insertion edit appears nowhere in the result. -/
theorem C7_alias_elision (s : SnapshotM) (m : MetadataM) (newPath newName : String)
    (dep : PackageM) (f : GoFileM) (imp : ImportSpecM) (eds : EditsList)
    (v rest : List TextEdit) (e0 : TextEdit)
    (hpath : imp.path = m.packagePath)
    (hname : imp.name = none)
    (hnew : newName ≠ m.packageName)
    (hfree : (fileScopeOf dep f.uri ++ dep.pkgScope).contains newName = false)
    (hcall : s.renameLocalAlias f.uri m.packagePath newName = .ok [(f.uri, v)])
    (hsort : sortEdits v = e0 :: rest) :
    processImport s m newPath newName dep f imp eds
      = .ok (eds ++ [(f.uri, ⟨imp.pathStart, imp.pathStop, quoteStr newPath⟩)]
          ++ rest.map fun e => (f.uri, e))
    ∧ (e0 ∉ rest → e0 ≠ ⟨imp.pathStart, imp.pathStop, quoteStr newPath⟩ →
        (∀ q ∈ eds, q.2 ≠ e0) →
        ∀ q ∈ eds ++ [(f.uri, ⟨imp.pathStart, imp.pathStop, quoteStr newPath⟩)]
            ++ rest.map fun e => (f.uri, e), q.2 ≠ e0) := by
  constructor
  · unfold processImport
    rw [if_neg (by simp [hpath])]
    rw [if_neg (by simp [hnew, hname])]
    rw [firstFree_eq_of_free _ _ hfree]
    simp only [hcall, if_pos rfl, assocUpdate, List.map_cons, List.map_nil, hsort,
      List.drop_succ_cons, List.drop_zero, assocFlatten, List.flatMap_cons, List.flatMap_nil,
      List.append_nil]
    simp
  · intro hnr hne hpre q hq
    rcases List.mem_append.mp hq with hq1 | hq2
    · rcases List.mem_append.mp hq1 with hq3 | hq4
      · exact hpre q hq3
      · rcases List.mem_singleton.mp hq4 with rfl
        simpa using fun he => hne he.symm
    · rcases List.mem_map.mp hq2 with ⟨e, he, rfl⟩
      intro hee
      exact hnr (hee ▸ he)

/-- Witness for C7: a dependency file imports `a/old` with no alias; the
probe chooses `new` itself, and the alias-insertion edit (the lexically
first of the two recursive edits) is dropped, leaving the path-literal edit
and the use-site edit. -/
theorem C7_alias_elision_witness :
    processImport
        ⟨fun _ => none, fun _ => .ok [],
         fun _ _ _ => .ok [("dep.go", [⟨20, 20, "new "⟩, ⟨50, 53, "new"⟩])]⟩
        ⟨"idOld", "old", "a/old", some "a"⟩ "a/new" "new"
        ⟨[⟨"dep.go", none, [⟨none, "a/old", 30, 37⟩]⟩], true, [], []⟩
        ⟨"dep.go", none, [⟨none, "a/old", 30, 37⟩]⟩
        ⟨none, "a/old", 30, 37⟩ []
      = .ok ([] ++ [("dep.go", ⟨30, 37, quoteStr "a/new"⟩)]
          ++ ([⟨50, 53, "new"⟩] : List TextEdit).map fun e => ("dep.go", e)) :=
  (C7_alias_elision
    ⟨fun _ => none, fun _ => .ok [],
     fun _ _ _ => .ok [("dep.go", [⟨20, 20, "new "⟩, ⟨50, 53, "new"⟩])]⟩
    ⟨"idOld", "old", "a/old", some "a"⟩ "a/new" "new"
    ⟨[⟨"dep.go", none, [⟨none, "a/old", 30, 37⟩]⟩], true, [], []⟩
    ⟨"dep.go", none, [⟨none, "a/old", 30, 37⟩]⟩
    ⟨none, "a/old", 30, 37⟩ []
    [⟨20, 20, "new "⟩, ⟨50, 53, "new"⟩] [⟨50, 53, "new"⟩] ⟨20, 20, "new "⟩
    rfl rfl (by decide) rfl rfl (by decide)).1

/-! ### Claim C5 -/

/-- One step of the package-clause loop, written out. -/
theorem clauseFiles_cons (m : MetadataM) (nn : String) (f : GoFileM)
    (rest : List GoFileM) (st : SeenSet × EditsList) :
    clauseFiles m nn (f :: rest) st
      = clauseFiles m nn rest
          ((seenAdd st.1 ⟨f.uri, m.packagePath⟩).2,
            if (seenAdd st.1 ⟨f.uri, m.packagePath⟩).1 then st.2
            else
              match f.pkgIdent with
              | none => st.2
              | some sp => st.2 ++ [(f.uri, ⟨sp.1, sp.2, nn⟩)]) := by
  by_cases hk : (⟨f.uri, m.packagePath⟩ : SeenKey) ∈ st.1
  · simp [clauseFiles, seenAdd, hk]
  · simp only [clauseFiles, seenAdd, if_neg hk, Bool.false_eq_true, if_false]
    cases f.pkgIdent <;> rfl

/-- The package-clause loop only appends edits. -/
theorem clauseFiles_mono (m : MetadataM) (nn : String) (files : List GoFileM) :
    ∀ (st : SeenSet × EditsList) (q : String × TextEdit), q ∈ st.2 →
    q ∈ (clauseFiles m nn files st).2 := by
  induction files with
  | nil => intro st q hq; exact hq
  | cons f rest ih =>
    intro st q hq
    rw [clauseFiles_cons]
    apply ih
    by_cases hs : (seenAdd st.1 ⟨f.uri, m.packagePath⟩).1 = true
    · simpa [hs] using hq
    · simp only [Bool.not_eq_true] at hs
      cases hpi : f.pkgIdent with
      | none => simpa [hs, hpi] using hq
      | some sp =>
        simp only [hs, hpi, Bool.false_eq_true, if_false]
        exact List.mem_append_left _ hq

/-- Every edit produced by the package-clause loop either was already there
or writes the new package name. -/
theorem clauseFiles_texts (m : MetadataM) (nn : String) (files : List GoFileM) :
    ∀ (st : SeenSet × EditsList) (q : String × TextEdit),
    q ∈ (clauseFiles m nn files st).2 → q ∈ st.2 ∨ q.2.new = nn := by
  induction files with
  | nil => intro st q hq; exact Or.inl hq
  | cons f rest ih =>
    intro st q hq
    rw [clauseFiles_cons] at hq
    rcases ih _ q hq with hq2 | hq2
    · by_cases hs : (seenAdd st.1 ⟨f.uri, m.packagePath⟩).1 = true
      · rw [if_pos hs] at hq2
        exact Or.inl hq2
      · simp only [Bool.not_eq_true] at hs
        rw [if_neg (by simp [hs])] at hq2
        cases hpi : f.pkgIdent with
        | none =>
          rw [hpi] at hq2
          exact Or.inl hq2
        | some sp =>
          rw [hpi] at hq2
          rcases List.mem_append.mp hq2 with hq3 | hq3
          · exact Or.inl hq3
          · rcases List.mem_singleton.mp hq3 with rfl
            exact Or.inr rfl
    · exact Or.inr hq2

/-- In the package-clause loop, a file with a package-clause identifier
whose (file, import path) pair is unseen gets its clause edit, provided the
file URIs are pairwise distinct. -/
theorem clauseFiles_mem (m : MetadataM) (nn : String) (files : List GoFileM) :
    ∀ (st : SeenSet × EditsList) (f : GoFileM) (a b : Nat), f ∈ files →
    f.pkgIdent = some (a, b) →
    (SeenKey.mk f.uri m.packagePath) ∉ st.1 →
    (files.map GoFileM.uri).Nodup →
    (f.uri, TextEdit.mk a b nn) ∈ (clauseFiles m nn files st).2 := by
  induction files with
  | nil => intro st f a b hf; exact absurd hf (List.not_mem_nil f)
  | cons g rest ih =>
    intro st f a b hf hpi hseen hnd
    rw [clauseFiles_cons]
    rcases List.mem_cons.mp hf with rfl | hf2
    · have hs : (seenAdd st.1 ⟨f.uri, m.packagePath⟩).1 = false := by
        simp [seenAdd, hseen]
      apply clauseFiles_mono
      simp only [hs, Bool.false_eq_true, if_false, hpi]
      exact List.mem_append_right _ (List.mem_singleton.mpr rfl)
    · have hne : f.uri ≠ g.uri := by
        intro he
        have hgu : g.uri ∉ rest.map GoFileM.uri := (List.nodup_cons.mp hnd).1
        exact hgu (he ▸ List.mem_map_of_mem GoFileM.uri hf2)
      have hseen2 : (SeenKey.mk f.uri m.packagePath)
          ∉ (seenAdd st.1 ⟨g.uri, m.packagePath⟩).2 := by
        by_cases hg : (⟨g.uri, m.packagePath⟩ : SeenKey) ∈ st.1
        · simpa [seenAdd, hg] using hseen
        · simp only [seenAdd, if_neg hg]
          intro hmem
          rcases List.mem_cons.mp hmem with heq | hmem2
          · exact hne (congrArg SeenKey.uri heq)
          · exact hseen hmem2
      exact ih _ f a b hf2 hpi hseen2 (List.nodup_cons.mp hnd).2

/-- One step of the import loop when the import carries an explicit alias:
only the path-literal edit is appended (and only for the matching path). -/
theorem processImport_alias_step (s : SnapshotM) (m : MetadataM)
    (newPath newName : String) (dep : PackageM) (f : GoFileM) (imp : ImportSpecM)
    (eds : EditsList) (ha : imp.name.isSome = true) :
    processImport s m newPath newName dep f imp eds
      = .ok (if imp.path = m.packagePath
          then eds ++ [(f.uri, ⟨imp.pathStart, imp.pathStop, quoteStr newPath⟩)]
          else eds) := by
  by_cases hp : imp.path = m.packagePath
  · simp [processImport, hp, ha]
  · simp [processImport, hp]

/-- The import loop under explicit aliases: it succeeds, only appends, and
appends exactly the path-literal edits (text `quoteStr newPath`), one for
each import of the renamed path. -/
theorem processImports_otm (s : SnapshotM) (m : MetadataM) (newPath newName : String)
    (dep : PackageM) (f : GoFileM) (imps : List ImportSpecM) :
    ∀ eds, (∀ i ∈ imps, i.name.isSome = true) →
    ∃ eds2, processImports s m newPath newName dep f imps eds = .ok eds2
      ∧ (∀ q ∈ eds2, q ∈ eds ∨ q.2.new = quoteStr newPath)
      ∧ (∀ q ∈ eds, q ∈ eds2)
      ∧ ∀ imp ∈ imps, imp.path = m.packagePath →
          (f.uri, TextEdit.mk imp.pathStart imp.pathStop (quoteStr newPath)) ∈ eds2 := by
  induction imps with
  | nil =>
    intro eds _
    exact ⟨eds, rfl, fun q hq => Or.inl hq, fun q hq => hq, by simp⟩
  | cons i rest ih =>
    intro eds ha
    have hstep := processImport_alias_step s m newPath newName dep f i eds (ha i (by simp))
    obtain ⟨eds2, hok, htexts, hmono, hmem⟩ :=
      ih (if i.path = m.packagePath
          then eds ++ [(f.uri, ⟨i.pathStart, i.pathStop, quoteStr newPath⟩)]
          else eds) (fun x hx => ha x (by simp [hx]))
    have hin : ∀ q ∈ (if i.path = m.packagePath
        then eds ++ [(f.uri, (⟨i.pathStart, i.pathStop, quoteStr newPath⟩ : TextEdit))]
        else eds), q ∈ eds ∨ q.2.new = quoteStr newPath := by
      intro q hq
      by_cases hp : i.path = m.packagePath
      · rw [if_pos hp] at hq
        rcases List.mem_append.mp hq with h | h
        · exact Or.inl h
        · rcases List.mem_singleton.mp h with rfl
          exact Or.inr rfl
      · rw [if_neg hp] at hq
        exact Or.inl hq
    refine ⟨eds2, ?_, ?_, ?_, ?_⟩
    · unfold processImports
      rw [hstep]
      exact hok
    · intro q hq
      rcases htexts q hq with h | h
      · exact hin q h
      · exact Or.inr h
    · intro q hq
      apply hmono
      by_cases hp : i.path = m.packagePath
      · rw [if_pos hp]
        exact List.mem_append_left _ hq
      · rw [if_neg hp]
        exact hq
    · intro imp himp hpath
      rcases List.mem_cons.mp himp with rfl | h2
      · apply hmono
        rw [if_pos hpath]
        exact List.mem_append_right _ (List.mem_singleton.mpr rfl)
      · exact hmem imp h2 hpath

/-- A file whose (file, import path) pair is already seen is skipped. -/
theorem processDepFile_seen (s : SnapshotM) (m : MetadataM) (newPath newName : String)
    (dep : PackageM) (f : GoFileM) (st : SeenSet × EditsList)
    (hk : (⟨f.uri, m.packagePath⟩ : SeenKey) ∈ st.1) :
    processDepFile s m newPath newName dep f st = .ok (st.1, st.2) := by
  simp [processDepFile, seenAdd, hk]

/-- A not-yet-seen file is marked seen and its imports are processed. -/
theorem processDepFile_unseen (s : SnapshotM) (m : MetadataM) (newPath newName : String)
    (dep : PackageM) (f : GoFileM) (st : SeenSet × EditsList) (eds2 : EditsList)
    (hk : (⟨f.uri, m.packagePath⟩ : SeenKey) ∉ st.1)
    (h : processImports s m newPath newName dep f f.imports st.2 = .ok eds2) :
    processDepFile s m newPath newName dep f st
      = .ok (⟨f.uri, m.packagePath⟩ :: st.1, eds2) := by
  simp [processDepFile, seenAdd, hk, h]

/-- The file loop under explicit aliases: it succeeds, only appends, and
appends only path-literal edits. -/
theorem processFiles_otm (s : SnapshotM) (m : MetadataM) (newPath newName : String)
    (dep : PackageM) (files : List GoFileM) :
    ∀ st, (∀ f ∈ files, ∀ i ∈ f.imports, i.name.isSome = true) →
    ∃ st2, processFiles s m newPath newName dep files st = .ok st2
      ∧ (∀ q ∈ st2.2, q ∈ st.2 ∨ q.2.new = quoteStr newPath)
      ∧ (∀ q ∈ st.2, q ∈ st2.2) := by
  induction files with
  | nil => intro st _; exact ⟨st, rfl, fun q hq => Or.inl hq, fun q hq => hq⟩
  | cons f rest ih =>
    intro st ha
    by_cases hk : (⟨f.uri, m.packagePath⟩ : SeenKey) ∈ st.1
    · obtain ⟨st2, hok, ht, hm⟩ := ih (st.1, st.2) (fun x hx => ha x (by simp [hx]))
      refine ⟨st2, ?_, ht, hm⟩
      unfold processFiles
      rw [processDepFile_seen s m newPath newName dep f st hk]
      exact hok
    · obtain ⟨eds2, hiok, hitexts, himono, _⟩ :=
        processImports_otm s m newPath newName dep f f.imports st.2 (ha f (by simp))
      obtain ⟨st2, hok, ht, hm⟩ :=
        ih (⟨f.uri, m.packagePath⟩ :: st.1, eds2) (fun x hx => ha x (by simp [hx]))
      refine ⟨st2, ?_, ?_, ?_⟩
      · unfold processFiles
        rw [processDepFile_unseen s m newPath newName dep f st eds2 hk hiok]
        exact hok
      · intro q hq
        rcases ht q hq with h | h
        · exact hitexts q h
        · exact Or.inr h
      · intro q hq
        exact hm q (himono q hq)

/-- The reverse-dependency loop under explicit aliases: it succeeds, only
appends, and appends only path-literal edits. -/
theorem processDeps_otm (s : SnapshotM) (m : MetadataM) (newPath newName : String)
    (deps : List PackageM) :
    ∀ st, (∀ dep ∈ deps, ∀ f ∈ dep.files, ∀ i ∈ f.imports, i.name.isSome = true) →
    ∃ st2, processDeps s m newPath newName deps st = .ok st2
      ∧ (∀ q ∈ st2.2, q ∈ st.2 ∨ q.2.new = quoteStr newPath)
      ∧ (∀ q ∈ st.2, q ∈ st2.2) := by
  induction deps with
  | nil => intro st _; exact ⟨st, rfl, fun q hq => Or.inl hq, fun q hq => hq⟩
  | cons dep rest ih =>
    intro st ha
    by_cases hfull : dep.parseModeFull = true
    · obtain ⟨st1, h1ok, h1t, h1m⟩ :=
        processFiles_otm s m newPath newName dep dep.files st (ha dep (by simp))
      obtain ⟨st2, hok, ht, hm⟩ := ih st1 (fun x hx => ha x (by simp [hx]))
      refine ⟨st2, ?_, ?_, ?_⟩
      · unfold processDeps processDep
        rw [if_pos hfull, h1ok]
        exact hok
      · intro q hq
        rcases ht q hq with h | h
        · exact h1t q h
        · exact Or.inr h
      · intro q hq
        exact hm q (h1m q hq)
    · obtain ⟨st2, hok, ht, hm⟩ := ih st (fun x hx => ha x (by simp [hx]))
      refine ⟨st2, ?_, ht, hm⟩
      unfold processDeps processDep
      rw [if_neg hfull]
      exact hok

/-- With a single fully-parsed reverse dependency consisting of a single
unseen file, every import of the renamed path gets its path-literal edit. -/
theorem processDeps_single_mem (s : SnapshotM) (m : MetadataM) (newPath newName : String)
    (dep : PackageM) (f : GoFileM) (st : SeenSet × EditsList) (imp : ImportSpecM)
    (st2 : SeenSet × EditsList)
    (hfiles : dep.files = [f]) (hfull : dep.parseModeFull = true)
    (hseen : (SeenKey.mk f.uri m.packagePath) ∉ st.1)
    (himp : imp ∈ f.imports) (hpath : imp.path = m.packagePath)
    (ha : ∀ i ∈ f.imports, i.name.isSome = true)
    (h : processDeps s m newPath newName [dep] st = .ok st2) :
    (f.uri, TextEdit.mk imp.pathStart imp.pathStop (quoteStr newPath)) ∈ st2.2 := by
  obtain ⟨eds2, hiok, _, _, hmem⟩ :=
    processImports_otm s m newPath newName dep f f.imports st.2 ha
  have hcomp : processDeps s m newPath newName [dep] st
      = .ok (⟨f.uri, m.packagePath⟩ :: st.1, eds2) := by
    unfold processDeps processDep
    rw [if_pos hfull, hfiles]
    unfold processFiles
    rw [processDepFile_unseen s m newPath newName dep f st eds2 hseen hiok]
    rfl
  rw [hcomp] at h
  simp only [Except.ok.injEq] at h
  rw [← h]
  exact hmem imp himp hpath

/-- For a package that is the rename target (`suffix = ""`) or one of its
slash-delimited descendants (`suffix = "/" ++ r`) in the renaming module,
the metadata loop body reduces to: rename the package clause when the
package is the target itself, then rewrite imports to
`newPathPre ++ suffix` with the package name `newName` for the target and
the unchanged name otherwise. -/
theorem processMeta_affected (s : SnapshotM) (modulePath oldPath newName newPathPre suffix : String)
    (m : MetadataM) (st : SeenSet × EditsList)
    (hm : m.packagePath = oldPath ++ suffix)
    (hsuf : suffix = "" ∨ ∃ r, suffix = "/" ++ r)
    (hmod : m.moduleInfo = some modulePath) :
    processMeta s modulePath oldPath newName newPathPre m st
      = match (if m.packagePath = oldPath then renamePackageClause s m newName st else .ok st) with
        | .error e => .error e
        | .ok st2 => renameImports s m (newPathPre ++ suffix)
            (if m.packagePath = oldPath then newName else m.packageName) st2 := by
  have hne : m.packagePath ≠ oldPath ++ "_test" := by
    rw [hm]
    apply strAppend_left_ne
    rcases hsuf with rfl | ⟨r, rfl⟩
    · decide
    · intro he
      have hd := congrArg String.data he
      rw [String.data_append] at hd
      simp at hd
  have hpre : strHasPre (m.packagePath ++ "/") (oldPath ++ "/") = true := by
    rw [hm]
    rcases hsuf with rfl | ⟨r, rfl⟩
    · rw [strAppend_empty]
      exact strHasPre_refl _
    · rw [← strAppend_assoc oldPath "/" r, strAppend_assoc (oldPath ++ "/") r "/"]
      exact strHasPre_append _ _
  have htrim : strTrimPre m.packagePath oldPath = suffix := by
    rw [hm]
    exact strTrimPre_append oldPath suffix
  unfold processMeta
  rw [if_neg hne, hpre]
  simp only [Bool.true_eq_false, if_false, hmod, ne_eq, not_true_eq_false, if_false, htrim]

/-- A package path of the form `oldPath ++ suffix` equals `oldPath` exactly
when the suffix is empty. -/
theorem target_iff {oldPath suffix p : String} (hm : p = oldPath ++ suffix) :
    p = oldPath ↔ suffix = "" := by
  constructor
  · intro h
    by_contra hs
    have he : oldPath ++ suffix = oldPath ++ "" := by
      rw [strAppend_empty, ← hm, h]
    exact strAppend_left_ne hs he
  · intro h
    rw [hm, h, strAppend_empty]

/-- Claim C5: in `renamePackage`, for the target package (`suffix = ""`) and
every affected same-module descendant (import path `oldPath ++ suffix`), the
rewritten import-path literal is exactly
`quote (pathJoin (pathDir oldPath) newName ++ suffix)` — the `oldPath`
prefix replaced by `path.Join(path.Dir(oldPath), newName)` with the suffix
preserved — and the target package's package clause is rewritten to
`newName`; no edit with any other text is produced for such a package.
(Imports of the reverse dependencies are taken with explicit aliases so that
the recursive alias rename, covered by C7, stays out of scope; the loop body
is applied at the `newPathPrefix` computed by `renamePackage`.) -/
theorem C5_path_rewrite (s : SnapshotM) (modulePath oldPath newName suffix : String)
    (m : MetadataM) (st : SeenSet × EditsList) (deps : List PackageM) (pkg : PackageM)
    (hm : m.packagePath = oldPath ++ suffix)
    (hsuf : suffix = "" ∨ ∃ r, suffix = "/" ++ r)
    (hmod : m.moduleInfo = some modulePath)
    (hdeps : s.reverseDeps m.packageId = .ok deps)
    (hpkg : s.pkgOfId m.packageId = some pkg)
    (halias : ∀ dep ∈ deps, ∀ f ∈ dep.files, ∀ i ∈ f.imports, i.name.isSome = true) :
    ∃ st2,
      processMeta s modulePath oldPath newName (pathJoin (pathDir oldPath) newName) m st
        = .ok st2
      ∧ (∀ q ∈ st2.2, q ∈ st.2 ∨ (suffix = "" ∧ q.2.new = newName)
          ∨ q.2.new = quoteStr (pathJoin (pathDir oldPath) newName ++ suffix))
      ∧ (suffix = "" → ∀ f ∈ pkg.files, ∀ a b : Nat, f.pkgIdent = some (a, b) →
          (SeenKey.mk f.uri m.packagePath) ∉ st.1 →
          (pkg.files.map GoFileM.uri).Nodup →
          (f.uri, TextEdit.mk a b newName) ∈ st2.2)
      ∧ (∀ dep f, deps = [dep] → dep.files = [f] → dep.parseModeFull = true →
          suffix ≠ "" → (SeenKey.mk f.uri m.packagePath) ∉ st.1 →
          ∀ imp ∈ f.imports, imp.path = m.packagePath →
          (f.uri, TextEdit.mk imp.pathStart imp.pathStop
              (quoteStr (pathJoin (pathDir oldPath) newName ++ suffix))) ∈ st2.2) := by
  have hiff := target_iff hm
  by_cases hz : suffix = ""
  · have hred : processMeta s modulePath oldPath newName
        (pathJoin (pathDir oldPath) newName) m st
        = processDeps s m (pathJoin (pathDir oldPath) newName ++ suffix) newName deps
            (clauseFiles m newName pkg.files st) := by
      rw [processMeta_affected s modulePath oldPath newName _ suffix m st hm hsuf hmod]
      simp only [if_pos (hiff.mpr hz)]
      unfold renamePackageClause
      rw [hpkg]
      unfold renameImports
      rw [hdeps]
    obtain ⟨st2, hok, ht, hmono⟩ := processDeps_otm s m
      (pathJoin (pathDir oldPath) newName ++ suffix) newName deps
      (clauseFiles m newName pkg.files st) halias
    refine ⟨st2, by rw [hred]; exact hok, ?_, ?_, ?_⟩
    · intro q hq
      rcases ht q hq with h | h
      · rcases clauseFiles_texts m newName pkg.files st q h with h2 | h2
        · exact Or.inl h2
        · exact Or.inr (Or.inl ⟨hz, h2⟩)
      · exact Or.inr (Or.inr h)
    · intro _ f hf a b hpi hsn hnd
      exact hmono _ (clauseFiles_mem m newName pkg.files st f a b hf hpi hsn hnd)
    · intro dep f _ _ _ hsz
      exact absurd hz hsz
  · have hne0 : m.packagePath ≠ oldPath := fun h => hz (hiff.mp h)
    have hred : processMeta s modulePath oldPath newName
        (pathJoin (pathDir oldPath) newName) m st
        = processDeps s m (pathJoin (pathDir oldPath) newName ++ suffix) m.packageName deps st := by
      rw [processMeta_affected s modulePath oldPath newName _ suffix m st hm hsuf hmod]
      simp only [if_neg hne0]
      unfold renameImports
      rw [hdeps]
    obtain ⟨st2, hok, ht, hmono⟩ := processDeps_otm s m
      (pathJoin (pathDir oldPath) newName ++ suffix) m.packageName deps st halias
    refine ⟨st2, by rw [hred]; exact hok, ?_, ?_, ?_⟩
    · intro q hq
      rcases ht q hq with h | h
      · exact Or.inl h
      · exact Or.inr (Or.inr h)
    · intro hz2
      exact absurd hz2 hz
    · intro dep f hdeq hfe hfull _ hsn imp himp hpath
      subst hdeq
      apply processDeps_single_mem s m _ m.packageName dep f st imp st2 hfe hfull hsn
        himp hpath (fun i hi => halias dep (by simp) f (by simp [hfe]) i hi)
      exact hok

/-- Witness for C5: the theorem applied to the descendant
`example.com/old/sub` of the renamed package `example.com/old` with one
reverse dependency importing it. -/
theorem C5_path_rewrite_witness :
    ∃ st2,
      processMeta snapC5 "example.com" "example.com/old" "new"
          (pathJoin (pathDir "example.com/old") "new") mC5 ([], []) = .ok st2
      ∧ (∀ q ∈ st2.2, q ∈ (([], []) : SeenSet × EditsList).2
          ∨ ("/sub" = "" ∧ q.2.new = "new")
          ∨ q.2.new = quoteStr (pathJoin (pathDir "example.com/old") "new" ++ "/sub"))
      ∧ ("/sub" = "" → ∀ f ∈ pkgC5.files, ∀ a b : Nat, f.pkgIdent = some (a, b) →
          (SeenKey.mk f.uri mC5.packagePath) ∉ (([], []) : SeenSet × EditsList).1 →
          (pkgC5.files.map GoFileM.uri).Nodup →
          (f.uri, TextEdit.mk a b "new") ∈ st2.2)
      ∧ (∀ dep f, [depC5] = [dep] → dep.files = [f] → dep.parseModeFull = true →
          "/sub" ≠ "" →
          (SeenKey.mk f.uri mC5.packagePath) ∉ (([], []) : SeenSet × EditsList).1 →
          ∀ imp ∈ f.imports, imp.path = mC5.packagePath →
          (f.uri, TextEdit.mk imp.pathStart imp.pathStop
              (quoteStr (pathJoin (pathDir "example.com/old") "new" ++ "/sub"))) ∈ st2.2) :=
  C5_path_rewrite snapC5 "example.com" "example.com/old" "new" "/sub" mC5 ([], [])
    [depC5] pkgC5 rfl (Or.inr ⟨"sub", rfl⟩) rfl rfl rfl (by decide)

end RenameCore
